import Mathlib

/-!
Shallow embedding of `src/backdoor-framework.c` (server core): the variable
table `vars`, the safety policy `trip_breaker_based_on_voltage`, the
post-command hook `server_interrupt` with its snapshot `show_variables`, and
the per-session command loop `process_client_commands` reading a finite byte
stream.  Printing is modelled as structured events; the socket is modelled as
the finite list of bytes the peer delivers before closing.
-/

namespace Backdoor

/-- One byte (`uint8_t` / `unsigned char` in the C source). -/
abbrev Byte := Fin 256

/-- The variable table: `static uint8_t vars[256]`, every 8-bit identifier has
an 8-bit value. -/
abbrev Vars := Byte → Byte

/-- Initial contents of `vars` from the C initializer: index 1 (voltage) = 240,
index 3 (min_voltage) = 235, index 4 (max_voltage) = 245,
index 5 (circuit_breaker) = 1, everything else 0. -/
def initVars : Vars := fun i =>
  if i = 1 then 240
  else if i = 3 then 235
  else if i = 4 then 245
  else if i = 5 then 1
  else 0

/-- Model of `variable_name(name, 0)`: the reserved name for identifiers 0..5, `none`
otherwise (the C function returns NULL). -/
def variableNameOpt (n : Byte) : Option String :=
  match (n : Nat) with
  | 0 => some "unused"
  | 1 => some "voltage"
  | 2 => some "amperage"
  | 3 => some "min_voltage"
  | 4 => some "max_voltage"
  | 5 => some "circuit_breaker"
  | _ => none

/-- Model of `variable_name(name, 1)`: the reserved name for 0..5, else the synthesized
`sprintf(dflt, "var[%u]", name)` string. -/
def variable_name (n : Byte) : String :=
  (variableNameOpt n).getD ("var[" ++ toString (n : Nat) ++ "]")

/-- Model of `show_variables`: the snapshot the interrupt prints.  One entry per
identifier `i` in ascending order 0..255 with
`variable_name(i,0) || vars[i]` non-trivial, as
(identifier, display name, current value). -/
def show_variables (v : Vars) : List (Nat × String × Byte) :=
  (List.finRange 256).filterMap fun i =>
    if (variableNameOpt i).isSome ∨ v i ≠ 0 then
      some ((i : Nat), variable_name i, v i)
    else
      none

/-- Model of `trip_breaker_based_on_voltage`:
`trip = vars[5] != 0 && (vars[1] < vars[3] || vars[1] > vars[4])`;
if `trip`, set `vars[5] = 0` and report the trip (the returned Bool models the
"circuit breaker tripped" message). -/
def trip_breaker_based_on_voltage (v : Vars) : Vars × Bool :=
  if v 5 ≠ 0 ∧ (v 1 < v 3 ∨ v 1 > v 4) then
    (Function.update v 5 0, true)
  else
    (v, false)

/-- Result of one `server_interrupt` call: the table afterwards, whether the
breaker tripped, and the printed snapshot. -/
structure InterruptResult where
  vars : Vars
  tripped : Bool
  snapshot : List (Nat × String × Byte)
deriving DecidableEq

/-- Model of `server_interrupt`: run the safety policy, then snapshot the (post-policy)
table with `show_variables`. -/
def server_interrupt (v : Vars) : InterruptResult :=
  let t := trip_breaker_based_on_voltage v
  ⟨t.1, t.2, show_variables t.1⟩

/-- Structured rendering of what the server prints while processing one
session: one event per received command, and one event per
`server_interrupt` call (carrying the trip report and the snapshot). -/
inductive Event where
  | cmdNop : Event
  | cmdExit : Event
  | cmdSet (id val : Byte) : Event
  | cmdUnknown (code : Byte) : Event
  | interrupt (tripped : Bool) (snapshot : List (Nat × String × Byte)) : Event
deriving DecidableEq

/-- Outcome of `process_client_commands` on one session's byte stream: final
table, emitted events in order, and whether `exit(0)` was reached. -/
structure SessionResult where
  vars : Vars
  events : List Event
  exited : Bool
deriving DecidableEq

/-- The event pair a non-exit command contributes: the command-received event
followed by the interrupt event for the table `v1` left by the command. -/
def cmdBlock (e : Event) (v1 : Vars) : List Event :=
  [e, Event.interrupt (server_interrupt v1).tripped (server_interrupt v1).snapshot]

/-- Model of `process_client_commands` on a finite byte stream (the peer closes after
the last byte).  Loop: read one command byte (return on end of stream);
`CMD_NOP` (0) prints and falls through to the interrupt; `CMD_EXIT` (1)
exits immediately with no interrupt; `CMD_SET_VARIABLE` (2) reads up to two
argument bytes into a buffer pre-initialized to `(VAR_UNUSED, 0) = (0, 0)`
ignoring the read count — missing bytes keep their zero fill — then performs
`vars[name_val[0]] = name_val[1]`; any other byte is reported unknown.  Every
case except exit is followed by `server_interrupt()`. -/
def process_client_commands : List Byte → Vars → SessionResult
  | [], v => ⟨v, [], false⟩
  | c :: rest, v =>
    if c = (0 : Byte) then
      let ir := server_interrupt v
      let r := process_client_commands rest ir.vars
      ⟨r.vars, cmdBlock Event.cmdNop v ++ r.events, r.exited⟩
    else if c = (1 : Byte) then
      ⟨v, [Event.cmdExit], true⟩
    else if c = (2 : Byte) then
      match rest with
      | [] =>
        let v1 := Function.update v 0 0
        ⟨(server_interrupt v1).vars, cmdBlock (Event.cmdSet 0 0) v1, false⟩
      | [b] =>
        let v1 := Function.update v b 0
        ⟨(server_interrupt v1).vars, cmdBlock (Event.cmdSet b 0) v1, false⟩
      | b1 :: b2 :: rest' =>
        let v1 := Function.update v b1 b2
        let ir := server_interrupt v1
        let r := process_client_commands rest' ir.vars
        ⟨r.vars, cmdBlock (Event.cmdSet b1 b2) v1 ++ r.events, r.exited⟩
    else
      let ir := server_interrupt v
      let r := process_client_commands rest ir.vars
      ⟨r.vars, cmdBlock (Event.cmdUnknown c) v ++ r.events, r.exited⟩

/-- Condition under which the policy trips, read off the C conjunction
`vars[5] != 0 && (vars[1] < vars[3] || vars[1] > vars[4])`. -/
def tripCond (v : Vars) : Prop :=
  v 5 ≠ 0 ∧ (v 1 < v 3 ∨ v 1 > v 4)

instance (v : Vars) : Decidable (tripCond v) := by
  unfold tripCond; infer_instance

/-- The invariant the interrupt establishes: breaker open, or voltage within
the configured bounds. -/
def Inv (v : Vars) : Prop :=
  v 5 = 0 ∨ (v 3 ≤ v 1 ∧ v 1 ≤ v 4)

instance (v : Vars) : Decidable (Inv v) := by
  unfold Inv; infer_instance

/-- Recognizer for interrupt events in a session trace. -/
def Event.isInterrupt : Event → Bool
  | .interrupt _ _ => true
  | _ => false

/-- Spec-side pairing discipline on a session trace: a sequence of
(command event, interrupt event) pairs, optionally ended by a sole exit
event; an exit event is never followed by anything and never paired with an
interrupt, and no interrupt occurs except immediately after a command. -/
def pairedEvents : List Event → Bool
  | [] => true
  | [Event.cmdExit] => true
  | Event.cmdNop :: Event.interrupt _ _ :: rest => pairedEvents rest
  | Event.cmdSet _ _ :: Event.interrupt _ _ :: rest => pairedEvents rest
  | Event.cmdUnknown _ :: Event.interrupt _ _ :: rest => pairedEvents rest
  | _ => false

/-- Byte stream consisting of a sequence of complete `SetVariable` commands:
each contributes the code byte 2 followed by identifier and value. -/
def setSeqBytes : List (Byte × Byte) → List Byte
  | [] => []
  | p :: rest => (2 : Byte) :: p.1 :: p.2 :: setSeqBytes rest

/-- Value of identifier `i` after a sequence of `(id, val)` writes starting
from default `d`: the value of the most recent write to `i`, else `d`. -/
def lastVal : List (Byte × Byte) → Byte → Byte → Byte
  | [], _, d => d
  | p :: rest, i, d => lastVal rest i (if p.1 = i then p.2 else d)

/-- Abstract command alphabet of the wire protocol (§4.4 of the spec):
`Nop` = code 0, `Exit` = code 1, `SetVariable` = code 2 with two argument
bytes, and every other single code byte is `Unknown`. -/
inductive Command where
  | nop : Command
  | exit : Command
  | set (id val : Byte) : Command
  | unknown (code : Byte) : Command
deriving DecidableEq

/-- Wire encoding of one command, per the byte-arity table. -/
def encodeCommand : Command → List Byte
  | .nop => [0]
  | .exit => [1]
  | .set i x => [2, i, x]
  | .unknown c => [c]

/-- Wire encoding of a command sequence, back-to-back with no delimiter. -/
def encodeCommands : List Command → List Byte
  | [] => []
  | c :: rest => encodeCommand c ++ encodeCommands rest

/-- An `unknown` command is well-formed when its code really is outside the
assigned codes 0, 1, 2 (otherwise its encoding would denote a different
command). -/
def Command.wfCode : Command → Bool
  | .unknown c => decide (c ≠ 0) && decide (c ≠ 1) && decide (c ≠ 2)
  | _ => true

/-- Does this command explicitly set `circuit_breaker` (identifier 5) to a
non-zero value? -/
def Command.setsBreakerNonzero : Command → Bool
  | .set i x => decide (i = 5) && decide (x ≠ 0)
  | _ => false

/-- Tables reachable from the documented initial table by processing any
finite sequence of client sessions. -/
inductive Reachable : Vars → Prop where
  | init : Reachable initVars
  | step (v : Vars) (input : List Byte) :
      Reachable v → Reachable (process_client_commands input v).vars

/-- Big-step execution relation of one session, with one rule per code path
of `process_client_commands`: end of stream, nop, exit, the two short-read
shapes of set, complete set, and unknown code.  Used to state that command
processing is deterministic in the starting table and the received bytes. -/
inductive Exec : List Byte → Vars → SessionResult → Prop where
  | eof (v : Vars) : Exec [] v ⟨v, [], false⟩
  | nop (rest : List Byte) (v : Vars) (r : SessionResult) :
      Exec rest (server_interrupt v).vars r →
      Exec ((0 : Byte) :: rest) v ⟨r.vars, cmdBlock Event.cmdNop v ++ r.events, r.exited⟩
  | exit (rest : List Byte) (v : Vars) :
      Exec ((1 : Byte) :: rest) v ⟨v, [Event.cmdExit], true⟩
  | setShort0 (v : Vars) :
      Exec [(2 : Byte)] v
        ⟨(server_interrupt (Function.update v 0 0)).vars,
          cmdBlock (Event.cmdSet 0 0) (Function.update v 0 0), false⟩
  | setShort1 (v : Vars) (b : Byte) :
      Exec [(2 : Byte), b] v
        ⟨(server_interrupt (Function.update v b 0)).vars,
          cmdBlock (Event.cmdSet b 0) (Function.update v b 0), false⟩
  | setFull (v : Vars) (b1 b2 : Byte) (rest : List Byte) (r : SessionResult) :
      Exec rest (server_interrupt (Function.update v b1 b2)).vars r →
      Exec ((2 : Byte) :: b1 :: b2 :: rest) v
        ⟨r.vars, cmdBlock (Event.cmdSet b1 b2) (Function.update v b1 b2) ++ r.events, r.exited⟩
  | unknown (c : Byte) (rest : List Byte) (v : Vars) (r : SessionResult) :
      c ≠ 0 → c ≠ 1 → c ≠ 2 →
      Exec rest (server_interrupt v).vars r →
      Exec (c :: rest) v ⟨r.vars, cmdBlock (Event.cmdUnknown c) v ++ r.events, r.exited⟩

/-! Unfolding lemmas for `process_client_commands`, one per command kind,
stated for an arbitrary remaining stream. -/

theorem process_nil (v : Vars) : process_client_commands [] v = ⟨v, [], false⟩ :=
  rfl

theorem process_nop (rest : List Byte) (v : Vars) :
    process_client_commands ((0 : Byte) :: rest) v =
      ⟨(process_client_commands rest (server_interrupt v).vars).vars,
        cmdBlock Event.cmdNop v ++ (process_client_commands rest (server_interrupt v).vars).events,
        (process_client_commands rest (server_interrupt v).vars).exited⟩ := by
  match rest with
  | [] => simp [process_client_commands]
  | [b] => simp [process_client_commands]
  | b1 :: b2 :: r => simp [process_client_commands]

theorem process_exit (rest : List Byte) (v : Vars) :
    process_client_commands ((1 : Byte) :: rest) v = ⟨v, [Event.cmdExit], true⟩ := by
  match rest with
  | [] => simp [process_client_commands]
  | [b] => simp [process_client_commands]
  | b1 :: b2 :: r => simp [process_client_commands]

theorem process_set_nil (v : Vars) :
    process_client_commands [(2 : Byte)] v =
      ⟨(server_interrupt (Function.update v 0 0)).vars,
        cmdBlock (Event.cmdSet 0 0) (Function.update v 0 0), false⟩ := by
  simp [process_client_commands]

theorem process_set_one (b : Byte) (v : Vars) :
    process_client_commands [(2 : Byte), b] v =
      ⟨(server_interrupt (Function.update v b 0)).vars,
        cmdBlock (Event.cmdSet b 0) (Function.update v b 0), false⟩ := by
  simp [process_client_commands]

theorem process_set_cons (b1 b2 : Byte) (r : List Byte) (v : Vars) :
    process_client_commands ((2 : Byte) :: b1 :: b2 :: r) v =
      ⟨(process_client_commands r (server_interrupt (Function.update v b1 b2)).vars).vars,
        cmdBlock (Event.cmdSet b1 b2) (Function.update v b1 b2) ++
          (process_client_commands r (server_interrupt (Function.update v b1 b2)).vars).events,
        (process_client_commands r (server_interrupt (Function.update v b1 b2)).vars).exited⟩ := by
  simp [process_client_commands]

theorem process_unknown (c : Byte) (h0 : c ≠ 0) (h1 : c ≠ 1) (h2 : c ≠ 2)
    (rest : List Byte) (v : Vars) :
    process_client_commands (c :: rest) v =
      ⟨(process_client_commands rest (server_interrupt v).vars).vars,
        cmdBlock (Event.cmdUnknown c) v ++
          (process_client_commands rest (server_interrupt v).vars).events,
        (process_client_commands rest (server_interrupt v).vars).exited⟩ := by
  match rest with
  | [] => simp [process_client_commands, h0, h1, h2]
  | [b] => simp [process_client_commands, h0, h1, h2]
  | b1 :: b2 :: r => simp [process_client_commands, h0, h1, h2]

/-! Basic facts about the safety policy and the interrupt. -/

theorem trip_vars_eq (v : Vars) :
    (trip_breaker_based_on_voltage v).1 =
      if tripCond v then Function.update v 5 0 else v := by
  unfold trip_breaker_based_on_voltage
  by_cases h : tripCond v
  · have hP : v 5 ≠ 0 ∧ (v 1 < v 3 ∨ v 1 > v 4) := h
    rw [if_pos hP, if_pos h]
  · have hP : ¬(v 5 ≠ 0 ∧ (v 1 < v 3 ∨ v 1 > v 4)) := h
    rw [if_neg hP, if_neg h]

theorem server_interrupt_vars (v : Vars) :
    (server_interrupt v).vars = if tripCond v then Function.update v 5 0 else v :=
  trip_vars_eq v

theorem server_interrupt_frame (v : Vars) (i : Byte) (hi : i ≠ 5) :
    (server_interrupt v).vars i = v i := by
  rw [server_interrupt_vars]
  by_cases h : tripCond v <;> simp [h, Function.update_apply, hi]

theorem server_interrupt_breaker (v : Vars) :
    (server_interrupt v).vars 5 = 0 ∨ (server_interrupt v).vars 5 = v 5 := by
  rw [server_interrupt_vars]
  by_cases h : tripCond v <;> simp [h]

theorem server_interrupt_of_breaker_zero (v : Vars) (h : v 5 = 0) :
    (server_interrupt v).vars = v := by
  rw [server_interrupt_vars, if_neg]
  intro hc
  exact hc.1 h

theorem server_interrupt_inv (v : Vars) : Inv (server_interrupt v).vars := by
  rw [server_interrupt_vars]
  by_cases h : tripCond v
  · rw [if_pos h]
    refine Or.inl ?_
    simp
  · rw [if_neg h]
    have h' := h
    unfold tripCond at h'
    push_neg at h'
    by_cases h5 : v 5 = 0
    · exact Or.inl h5
    · exact Or.inr (h' h5)

theorem server_interrupt_id_of_inv (v : Vars) (h : Inv v) :
    (server_interrupt v).vars = v := by
  rw [server_interrupt_vars, if_neg]
  rintro ⟨h5, hrange⟩
  rcases h with h0 | ⟨hlo, hhi⟩
  · exact h5 h0
  · rcases hrange with hlt | hgt
    · exact absurd hlo (not_le_of_lt hlt)
    · exact absurd hhi (not_le_of_lt hgt)

/-! Agreement between the functional loop and the big-step relation. -/

theorem exec_process (input : List Byte) (v : Vars) :
    Exec input v (process_client_commands input v) := by
  induction input, v using process_client_commands.induct with
  | case1 v =>
    rw [process_nil]
    exact Exec.eof v
  | case2 rest v ir ih =>
    rw [process_nop]
    exact Exec.nop rest v _ ih
  | case3 rest v h =>
    rw [process_exit]
    exact Exec.exit rest v
  | case4 v h0 h1 =>
    rw [process_set_nil]
    exact Exec.setShort0 v
  | case5 v b h0 h1 =>
    rw [process_set_one]
    exact Exec.setShort1 v b
  | case6 v b1 b2 rest' v1 ir h0 h1 ih =>
    rw [process_set_cons]
    exact Exec.setFull v b1 b2 rest' _ ih
  | case7 c rest v h0 h1 h2 ir ih =>
    rw [process_unknown c h0 h1 h2]
    exact Exec.unknown c rest v _ h0 h1 h2 ih

theorem exec_eq_process (input : List Byte) (v : Vars) (r : SessionResult)
    (h : Exec input v r) : r = process_client_commands input v := by
  induction h with
  | eof v => rw [process_nil]
  | nop rest v r h ih => rw [process_nop, ih]
  | exit rest v => rw [process_exit]
  | setShort0 v => rw [process_set_nil]
  | setShort1 v b => rw [process_set_one]
  | setFull v b1 b2 rest r h ih => rw [process_set_cons, ih]
  | unknown c rest v r h0 h1 h2 h ih => rw [process_unknown c h0 h1 h2, ih]

/-- C1: the safety policy trips the breaker iff the breaker is closed and the
voltage is out of range: the trip is reported exactly when `circuit_breaker`
(variable 5) is non-zero and voltage (variable 1) is below `min_voltage`
(variable 3) or above `max_voltage` (variable 4); when it trips, the only
mutation is `circuit_breaker := 0`; in every other state the table is
returned unchanged. -/
theorem trip_breaker_iff_closed_and_out_of_range (v : Vars) :
    ((trip_breaker_based_on_voltage v).2 = true ↔
      v 5 ≠ 0 ∧ (v 1 < v 3 ∨ v 1 > v 4)) ∧
    ((trip_breaker_based_on_voltage v).2 = true ∧
       (trip_breaker_based_on_voltage v).1 = Function.update v 5 0 ∧
       (trip_breaker_based_on_voltage v).1 5 = 0 ∨
     (trip_breaker_based_on_voltage v).2 = false ∧
       (trip_breaker_based_on_voltage v).1 = v) := by
  unfold trip_breaker_based_on_voltage
  by_cases h : v 5 ≠ 0 ∧ (v 1 < v 3 ∨ v 1 > v 4)
  · rw [if_pos h]
    refine ⟨by simpa using h, Or.inl ⟨rfl, rfl, by simp⟩⟩
  · rw [if_neg h]
    exact ⟨by simpa using h, Or.inr ⟨rfl, rfl⟩⟩

/-- C2 counterexample: a session that sends the `SetVariable` code byte plus
one argument byte (identifier 5) and then closes does NOT leave the table
unmutated: the code zero-fills the missing value byte and applies the
command, so `circuit_breaker` goes from 1 to 0. -/
theorem short_read_discard_counterexample :
    (process_client_commands [2, 5] initVars).vars 5 = 0 ∧ initVars 5 = 1 ∧
    (process_client_commands [2, 5] initVars).vars ≠ initVars := by
  refine ⟨by decide, by decide, fun h => ?_⟩
  have h5 : (process_client_commands [2, 5] initVars).vars 5 = initVars 5 :=
    congrFun h 5
  rw [show (process_client_commands [2, 5] initVars).vars 5 = 0 by decide] at h5
  exact absurd h5.symm (by decide)

/-- C2 amended: when the stream ends before the two argument bytes of
`SetVariable` are fully delivered, the missing bytes are zero-filled from the
pre-initialized buffer (identifier defaults to 0, value to 0), the partial
command IS applied with those bytes — so the variable named by the delivered
identifier byte is set to 0 — exactly one interrupt follows it, and the
session then ends without `exit` being reached. -/
theorem short_read_zero_fill_applied (v : Vars) (b : Byte) :
    (process_client_commands [(2 : Byte), b] v).vars b = 0 ∧
    (process_client_commands [(2 : Byte), b] v).vars =
      (server_interrupt (Function.update v b 0)).vars ∧
    (process_client_commands [(2 : Byte), b] v).events.countP Event.isInterrupt = 1 ∧
    (process_client_commands [(2 : Byte), b] v).exited = false ∧
    (process_client_commands [(2 : Byte)] v).vars =
      (server_interrupt (Function.update v 0 0)).vars ∧
    (process_client_commands [(2 : Byte)] v).exited = false := by
  rw [process_set_one, process_set_nil]
  refine ⟨?_, rfl, by simp [cmdBlock, Event.isInterrupt], rfl, rfl, rfl⟩
  show (server_interrupt (Function.update v b 0)).vars b = 0
  by_cases hb : b = (5 : Byte)
  · subst hb
    rw [server_interrupt_of_breaker_zero _ (by simp)]
    simp
  · rw [server_interrupt_frame _ b hb]
    simp

/-- C5: interrupt-per-command pairing.  In every session trace, each applied
command event (nop, set — complete or zero-filled — and unknown) is
immediately followed by exactly one interrupt event, an exit event terminates
the trace with no interrupt after it, and no interrupt event occurs anywhere
else. -/
theorem every_command_paired_with_interrupt (input : List Byte) (v : Vars) :
    pairedEvents (process_client_commands input v).events = true := by
  induction input, v using process_client_commands.induct with
  | case1 v =>
    rw [process_nil]
    rfl
  | case2 rest v ir ih =>
    rw [process_nop]
    simpa [cmdBlock, pairedEvents] using ih
  | case3 rest v h =>
    rw [process_exit]
    rfl
  | case4 v h0 h1 =>
    rw [process_set_nil]
    rfl
  | case5 v b h0 h1 =>
    rw [process_set_one]
    rfl
  | case6 v b1 b2 rest' v1 ir h0 h1 ih =>
    rw [process_set_cons]
    simpa [cmdBlock, pairedEvents] using ih
  | case7 c rest v h0 h1 h2 ir ih =>
    rw [process_unknown c h0 h1 h2]
    simpa [cmdBlock, pairedEvents] using ih

/-- C9: total get/set over the full identifier space.  Every 8-bit identifier
indexes the 256-entry table (no out-of-range access is representable), a
never-set identifier holds its documented default (0 for identifiers above
5), writing any identifier/value pair succeeds unconditionally and is
afterwards readable, other identifiers are untouched by a write, and the
`SetVariable` command applies the write for every identifier with no
validation beyond being on the transport. -/
theorem variable_store_total_get_set (s : Vars) (id x j : Byte) :
    Function.update s id x id = x ∧
    (j ≠ id → Function.update s id x j = s j) ∧
    (6 ≤ (id : Nat) → initVars id = 0) ∧
    (process_client_commands [(2 : Byte), id, x] s).vars =
      (server_interrupt (Function.update s id x)).vars := by
  refine ⟨by simp, fun hj => by simp [Function.update_apply, hj], fun h6 => ?_, ?_⟩
  · unfold initVars
    have h1 : id ≠ 1 := by
      rintro rfl; exact absurd h6 (by decide)
    have h3 : id ≠ 3 := by
      rintro rfl; exact absurd h6 (by decide)
    have h4 : id ≠ 4 := by
      rintro rfl; exact absurd h6 (by decide)
    have h5 : id ≠ 5 := by
      rintro rfl; exact absurd h6 (by decide)
    simp [h1, h3, h4, h5]
  · rw [show ([(2 : Byte), id, x] : List Byte) = (2 : Byte) :: id :: x :: [] from rfl,
      process_set_cons]
    rw [process_nil]

/-- C9 witness: at identifier 200 and value 77 from the initial table, the
write is readable back, identifier 0 is untouched, and 200 defaults to 0. -/
theorem variable_store_total_get_set_witness :
    Function.update initVars 200 77 200 = 77 ∧
    Function.update initVars 200 77 0 = initVars 0 ∧
    initVars 200 = 0 := by
  obtain ⟨h1, h2, h3, h4⟩ := variable_store_total_get_set initVars 200 77 0
  exact ⟨h1, h2 (by decide), h3 (by decide)⟩

/-- C10: command processing is deterministic.  The big-step execution
relation `Exec` (one rule per code path) relates a given byte stream and
starting table to at most one outcome: final table, event trace and exit
flag are functions of exactly the bytes received and the starting table. -/
theorem session_processing_deterministic (input : List Byte) (v : Vars)
    (r₁ r₂ : SessionResult) (h₁ : Exec input v r₁) (h₂ : Exec input v r₂) :
    r₁ = r₂ := by
  rw [exec_eq_process input v r₁ h₁, exec_eq_process input v r₂ h₂]

/-- C10 witness: two executions of the single-nop session from the initial
table agree. -/
theorem session_processing_deterministic_witness :
    process_client_commands [(0 : Byte)] initVars =
      process_client_commands [(0 : Byte)] initVars :=
  session_processing_deterministic [(0 : Byte)] initVars _ _
    (exec_process [(0 : Byte)] initVars) (exec_process [(0 : Byte)] initVars)

/-! Machinery for the frame-isolation claim over `SetVariable` sequences. -/

theorem lastVal_cases (cs : List (Byte × Byte)) (i : Byte) :
    (∀ d, lastVal cs i d = d) ∨ ∀ d d', lastVal cs i d = lastVal cs i d' := by
  induction cs with
  | nil => exact Or.inl fun d => rfl
  | cons p rest ih =>
    by_cases hp : p.1 = i
    · exact Or.inr fun d d' => by simp [lastVal, hp]
    · rcases ih with h | h
      · exact Or.inl fun d => by simp [lastVal, hp, h]
      · refine Or.inr fun d d' => ?_
        show lastVal rest i (if p.1 = i then p.2 else d) =
          lastVal rest i (if p.1 = i then p.2 else d')
        rw [if_neg hp, if_neg hp]
        exact h d d'

theorem setseq_aux (cmds : List (Byte × Byte)) (v : Vars) :
    (∀ i, i ≠ 5 →
      (process_client_commands (setSeqBytes cmds) v).vars i = lastVal cmds i (v i)) ∧
    ((process_client_commands (setSeqBytes cmds) v).vars 5 = 0 ∨
      (process_client_commands (setSeqBytes cmds) v).vars 5 = lastVal cmds 5 (v 5)) := by
  induction cmds generalizing v with
  | nil =>
    rw [show setSeqBytes [] = [] from rfl, process_nil]
    exact ⟨fun i _ => rfl, Or.inr rfl⟩
  | cons p cs ih =>
    rw [show setSeqBytes (p :: cs) = (2 : Byte) :: p.1 :: p.2 :: setSeqBytes cs from rfl,
      process_set_cons]
    set w := (server_interrupt (Function.update v p.1 p.2)).vars with hw
    constructor
    · intro i hi
      have h1 := (ih w).1 i hi
      have hwi : w i = Function.update v p.1 p.2 i := server_interrupt_frame _ i hi
      show (process_client_commands (setSeqBytes cs) w).vars i = lastVal (p :: cs) i (v i)
      rw [h1, hwi, Function.update_apply]
      show lastVal cs i (if i = p.1 then p.2 else v i) =
        lastVal cs i (if p.1 = i then p.2 else v i)
      by_cases hp : p.1 = i
      · rw [if_pos hp.symm, if_pos hp]
      · rw [if_neg fun h => hp h.symm, if_neg hp]
    · have h2 := (ih w).2
      have hw5 : w 5 = 0 ∨ w 5 = Function.update v p.1 p.2 5 := server_interrupt_breaker _
      show (process_client_commands (setSeqBytes cs) w).vars 5 = 0 ∨
        (process_client_commands (setSeqBytes cs) w).vars 5 = lastVal (p :: cs) 5 (v 5)
      have hstep : lastVal (p :: cs) 5 (v 5) = lastVal cs 5 (if p.1 = 5 then p.2 else v 5) := rfl
      rcases h2 with h0 | hval
      · exact Or.inl h0
      · rcases hw5 with hz | hnz
        · rw [hz] at hval
          rcases lastVal_cases cs 5 with hc | hc
          · exact Or.inl (by rw [hval, hc])
          · refine Or.inr ?_
            rw [hstep, hval]
            exact hc 0 _
        · refine Or.inr ?_
          rw [hstep, hval, hnz, Function.update_apply]
          by_cases hp : p.1 = 5
          · rw [if_pos hp.symm, if_pos hp]
          · rw [if_neg fun h => hp h.symm, if_neg hp]

/-- C3 counterexample: the sequence consisting of the single complete command
`SetVariable(1, 0)` (set voltage to 0) never names identifier 5, yet after
processing, identifier 5 (`circuit_breaker`) no longer holds its initial
value 1: the per-command interrupt tripped the breaker to 0. -/
theorem setvar_frame_isolation_counterexample :
    (process_client_commands (setSeqBytes [((1 : Byte), (0 : Byte))]) initVars).vars 5 = 0 ∧
    initVars 5 = 1 :=
  ⟨by decide, by decide⟩

/-- C3 amended: for every sequence of complete `SetVariable(id, v)` commands
processed from the initial state, each identifier OTHER than 5
(`circuit_breaker`) holds the value of its most recent `SetVariable` — or its
initial value if never named — while identifier 5 holds either its
most-recent/initial value or 0, because the per-command interrupt may trip
the breaker to 0. -/
theorem setvar_frame_isolation_amended (cmds : List (Byte × Byte)) (i : Byte)
    (hi : i ≠ 5) :
    (process_client_commands (setSeqBytes cmds) initVars).vars i =
      lastVal cmds i (initVars i) ∧
    ((process_client_commands (setSeqBytes cmds) initVars).vars 5 = 0 ∨
      (process_client_commands (setSeqBytes cmds) initVars).vars 5 =
        lastVal cmds 5 (initVars 5)) :=
  ⟨(setseq_aux cmds initVars).1 i hi, (setseq_aux cmds initVars).2⟩

/-- C3 amended witness: after `SetVariable(1, 250)`, identifier 1 holds its
most recent value. -/
theorem setvar_frame_isolation_amended_witness :
    (process_client_commands (setSeqBytes [((1 : Byte), (250 : Byte))]) initVars).vars 1 =
      lastVal [((1 : Byte), (250 : Byte))] 1 (initVars 1) :=
  (setvar_frame_isolation_amended [((1 : Byte), (250 : Byte))] 1 (by decide)).1

/-- C4: once tripped, the breaker stays tripped until explicitly re-set.
From any table with `circuit_breaker = 0`, processing any sequence of
commands that contains no `SetVariable(5, nonzero)` — nops, exits, unknown
codes, and arbitrary other `SetVariable`s included — leaves
`circuit_breaker = 0`; equivalently, only an explicit
`SetVariable(circuit_breaker, nonzero)` command can re-close it. -/
theorem breaker_stays_tripped (cmds : List Command) :
    ∀ v : Vars, v 5 = 0 →
    (∀ c ∈ cmds, c.wfCode = true ∧ c.setsBreakerNonzero = false) →
    (process_client_commands (encodeCommands cmds) v).vars 5 = 0 := by
  induction cmds with
  | nil =>
    intro v hv _
    rw [show encodeCommands [] = [] from rfl, process_nil]
    exact hv
  | cons c cs ih =>
    intro v hv hcmds
    have hc := hcmds c (List.mem_cons_self c cs)
    have hcs : ∀ c' ∈ cs, c'.wfCode = true ∧ c'.setsBreakerNonzero = false :=
      fun c' hc' => hcmds c' (List.mem_cons_of_mem c hc')
    match c with
    | .nop =>
      rw [show encodeCommands (.nop :: cs) = (0 : Byte) :: encodeCommands cs from rfl,
        process_nop]
      show (process_client_commands (encodeCommands cs) (server_interrupt v).vars).vars 5 = 0
      rw [server_interrupt_of_breaker_zero v hv]
      exact ih v hv hcs
    | .exit =>
      rw [show encodeCommands (.exit :: cs) = (1 : Byte) :: encodeCommands cs from rfl,
        process_exit]
      exact hv
    | .set i x =>
      rw [show encodeCommands (.set i x :: cs) = (2 : Byte) :: i :: x :: encodeCommands cs
          from rfl, process_set_cons]
      have hv1 : Function.update v i x 5 = 0 := by
        by_cases hi5 : i = 5
        · subst hi5
          by_cases hx : x = 0
          · rw [hx]
            simp
          · exfalso
            have h2 := hc.2
            simp [Command.setsBreakerNonzero, hx] at h2
        · rw [Function.update_apply, if_neg fun h => hi5 h.symm]
          exact hv
      show (process_client_commands (encodeCommands cs)
        (server_interrupt (Function.update v i x)).vars).vars 5 = 0
      rw [server_interrupt_of_breaker_zero _ hv1]
      exact ih _ hv1 hcs
    | .unknown k =>
      have hk := hc.1
      simp only [Command.wfCode, Bool.and_eq_true, decide_eq_true_eq] at hk
      obtain ⟨⟨hk0, hk1⟩, hk2⟩ := hk
      rw [show encodeCommands (.unknown k :: cs) = k :: encodeCommands cs from rfl,
        process_unknown k hk0 hk1 hk2]
      show (process_client_commands (encodeCommands cs) (server_interrupt v).vars).vars 5 = 0
      rw [server_interrupt_of_breaker_zero v hv]
      exact ih v hv hcs

/-- C4 witness: with the breaker tripped, an in-range `SetVariable(voltage, 240)`
does not re-close it. -/
theorem breaker_stays_tripped_witness :
    (process_client_commands (encodeCommands [Command.set 1 240])
      (Function.update initVars 5 0)).vars 5 = 0 :=
  breaker_stays_tripped [Command.set 1 240] (Function.update initVars 5 0)
    (by simp) (by decide)

/-! Reachability preserves the breaker/voltage invariant. -/

theorem process_vars_self_or_inv (input : List Byte) (v : Vars) :
    (process_client_commands input v).vars = v ∨
      Inv (process_client_commands input v).vars := by
  induction input, v using process_client_commands.induct with
  | case1 v =>
    rw [process_nil]
    exact Or.inl rfl
  | case2 rest v ir ih =>
    rw [process_nop]
    refine Or.inr ?_
    show Inv (process_client_commands rest (server_interrupt v).vars).vars
    rcases ih with h | h
    · rw [h]
      exact server_interrupt_inv v
    · exact h
  | case3 rest v h =>
    rw [process_exit]
    exact Or.inl rfl
  | case4 v h0 h1 =>
    rw [process_set_nil]
    exact Or.inr (server_interrupt_inv _)
  | case5 v b h0 h1 =>
    rw [process_set_one]
    exact Or.inr (server_interrupt_inv _)
  | case6 v b1 b2 rest' v1 ir h0 h1 ih =>
    rw [process_set_cons]
    refine Or.inr ?_
    show Inv (process_client_commands rest'
      (server_interrupt (Function.update v b1 b2)).vars).vars
    rcases ih with h | h
    · rw [h]
      exact server_interrupt_inv _
    · exact h
  | case7 c rest v h0 h1 h2 ir ih =>
    rw [process_unknown c h0 h1 h2]
    refine Or.inr ?_
    show Inv (process_client_commands rest (server_interrupt v).vars).vars
    rcases ih with h | h
    · rw [h]
      exact server_interrupt_inv v
    · exact h

theorem reachable_inv (v : Vars) (h : Reachable v) : Inv v := by
  induction h with
  | init => decide
  | step w input hw ih =>
    rcases process_vars_self_or_inv input w with h | h
    · rw [h]
      exact ih
    · exact h

/-- C6: Nop is observationally a no-op on state.  On every table reachable
from the documented initial state by processing byte streams, handling a
`Nop` command — including its mandatory interrupt — changes no variable, and
the trace of that command contains exactly one interrupt event. -/
theorem nop_preserves_reachable_state (v : Vars) (h : Reachable v) :
    (process_client_commands [(0 : Byte)] v).vars = v ∧
    (process_client_commands [(0 : Byte)] v).events.countP Event.isInterrupt = 1 := by
  have hsi : (server_interrupt v).vars = v :=
    server_interrupt_id_of_inv v (reachable_inv v h)
  constructor
  · rw [process_nop]
    show (process_client_commands [] (server_interrupt v).vars).vars = v
    rw [process_nil]
    exact hsi
  · rw [process_nop]
    show (cmdBlock Event.cmdNop v ++
      (process_client_commands [] (server_interrupt v).vars).events).countP
        Event.isInterrupt = 1
    rw [process_nil]
    simp [cmdBlock, Event.isInterrupt]

/-- C6 witness: a nop session from the initial table leaves it unchanged and
runs one interrupt. -/
theorem nop_preserves_reachable_state_witness :
    (process_client_commands [(0 : Byte)] initVars).vars = initVars ∧
    (process_client_commands [(0 : Byte)] initVars).events.countP
      Event.isInterrupt = 1 :=
  nop_preserves_reachable_state initVars Reachable.init

/-- C7: implicit invariant established by the interrupt.  Whenever
`server_interrupt` has just returned, either the breaker is open
(`circuit_breaker = 0`) or the voltage lies within
`[min_voltage, max_voltage]`; consequently every table reachable from the
documented initial table satisfies the invariant at every command boundary:
the breaker is never observed closed while the voltage is out of range. -/
theorem interrupt_establishes_invariant :
    (∀ v : Vars, Inv (server_interrupt v).vars) ∧
    ∀ v : Vars, Reachable v → Inv v :=
  ⟨server_interrupt_inv, reachable_inv⟩

/-- C7 witness: the initial table is reachable and satisfies the invariant. -/
theorem interrupt_establishes_invariant_witness : Inv initVars :=
  interrupt_establishes_invariant.2 initVars Reachable.init

set_option maxRecDepth 4000 in
theorem variableNameOpt_isSome_iff (i : Byte) :
    (variableNameOpt i).isSome = true ↔ (i : Nat) ≤ 5 := by
  revert i
  decide

/-- C8: snapshot contents and order.  For every table, the interrupt's
snapshot lists exactly those identifiers that are reserved/named (0..5) or
currently non-zero; every entry is the triple (identifier, display name,
current value); entries appear in strictly ascending identifier order; the
display name is the documented name for identifiers 0..5 and the synthesized
`var[i]` name otherwise. -/
theorem snapshot_exact_and_sorted (v : Vars) :
    (∀ e ∈ show_variables v, ∃ i : Byte,
        e = ((i : Nat), variable_name i, v i) ∧ ((i : Nat) ≤ 5 ∨ v i ≠ 0)) ∧
    (∀ i : Byte, (i : Nat) ≤ 5 ∨ v i ≠ 0 →
        ((i : Nat), variable_name i, v i) ∈ show_variables v) ∧
    List.Pairwise (fun a b => a.1 < b.1) (show_variables v) ∧
    variable_name 0 = "unused" ∧ variable_name 1 = "voltage" ∧
    variable_name 2 = "amperage" ∧ variable_name 3 = "min_voltage" ∧
    variable_name 4 = "max_voltage" ∧ variable_name 5 = "circuit_breaker" ∧
    ∀ i : Byte, 5 < (i : Nat) →
      variable_name i = "var[" ++ toString (i : Nat) ++ "]" := by
  refine ⟨?_, ?_, ?_, rfl, rfl, rfl, rfl, rfl, rfl, ?_⟩
  · intro e he
    rw [show_variables, List.mem_filterMap] at he
    obtain ⟨i, _, hfi⟩ := he
    by_cases hcond : (variableNameOpt i).isSome ∨ v i ≠ 0
    · rw [if_pos hcond, Option.some_inj] at hfi
      refine ⟨i, hfi.symm, ?_⟩
      rcases hcond with hs | hz
      · exact Or.inl ((variableNameOpt_isSome_iff i).1 hs)
      · exact Or.inr hz
    · rw [if_neg hcond] at hfi
      exact absurd hfi (Option.noConfusion)
  · intro i hi
    rw [show_variables, List.mem_filterMap]
    refine ⟨i, List.mem_finRange i, ?_⟩
    rw [if_pos]
    rcases hi with h5 | hz
    · exact Or.inl ((variableNameOpt_isSome_iff i).2 h5)
    · exact Or.inr hz
  · rw [show_variables]
    refine List.Pairwise.filterMap _ ?_ (List.pairwise_lt_finRange 256)
    intro a a' hlt b hb b' hb'
    by_cases hca : (variableNameOpt a).isSome ∨ v a ≠ 0
    · rw [if_pos hca, Option.mem_some_iff] at hb
      by_cases hca' : (variableNameOpt a').isSome ∨ v a' ≠ 0
      · rw [if_pos hca', Option.mem_some_iff] at hb'
        rw [← hb, ← hb']
        exact hlt
      · rw [if_neg hca'] at hb'
        exact absurd hb' (by simp)
    · rw [if_neg hca] at hb
      exact absurd hb (by simp)
  · intro i h5
    cases hvn : variableNameOpt i with
    | none =>
      unfold variable_name
      rw [hvn]
      rfl
    | some s =>
      exfalso
      have hs : (i : Nat) ≤ 5 := (variableNameOpt_isSome_iff i).1 (by rw [hvn]; rfl)
      exact absurd hs (not_le_of_lt h5)

/-- C8 witness: identifier 5 is reserved, so (5, its display name, its
current value) appears in the snapshot of the initial table. -/
theorem snapshot_exact_and_sorted_witness :
    (((5 : Byte) : Nat), variable_name 5, initVars 5) ∈ show_variables initVars :=
  (snapshot_exact_and_sorted initVars).2.1 5 (Or.inl (by decide))

end Backdoor
